import Mathlib

/-!
Shallow embedding of the word-completion engine in
`src/dot.config/cudatext/py/cuda_complete_from_text/__init__.py`.

Strings are modelled as `List Char`; Python `str.upper`/`str.lower` are
modelled with the ASCII `Char.toUpper`/`Char.toLower`.  The module-level
option globals are gathered into a `Config` record that is passed to every
function that reads them; each field keeps its source name.  Machine
integers read from the settings file are modelled as `Int`.  Fallible code
(places where the Python source can raise) is modelled with `Except Unit`;
external collaborators (the editor buffer API, the regex scanner, the
dictionary file system lookup) are parameters.
-/

set_option maxHeartbeats 1000000

/-- Configuration record: the module-level `option_*` globals read from
`plugins.ini` (source lines 15-26).  Integer-valued options are `Int`
because `int(...)` accepts any integer text. -/
structure Config where
  option_lexers : List Char
  option_min_len : Int
  option_case_sens : Bool
  option_what_editors : Int
  option_max_lines : Int
  option_use_acp : Bool
  option_show_acp_first : Bool
  option_case_split : Bool
  option_underscore_split : Bool
  option_fuzzy : Bool
deriving Repr, DecidableEq

deriving instance DecidableEq for Except

/-- Python `s.startswith(pre)` on list-of-char strings. -/
def startswith : List Char → List Char → Bool
  | _, [] => true
  | [], _ :: _ => false
  | c :: cs, p :: ps => c == p && startswith cs ps

/-- Python `str.upper` (ASCII model). -/
def upperStr (s : List Char) : List Char := s.map Char.toUpper

/-- Python `str.lower` (ASCII model). -/
def lowerStr (s : List Char) : List Char := s.map Char.toLower

/-- Source `is_plain_match` (lines 54-59); the global `option_case_sens`
becomes the `case_sens` parameter. -/
def is_plain_match (case_sens : Bool) (stext sfind : List Char) : Bool :=
  if case_sens then startswith stext sfind
  else startswith (upperStr stext) (upperStr sfind)

/-- Python `stext.find(ch, n+1)` restricted to the suffix that starts at
index `n+1`: returns the suffix strictly after the first occurrence of
`ch`, or `none` when `ch` does not occur (the source tests `n < 0`). -/
def findCharFrom (ch : Char) : List Char → Option (List Char)
  | [] => none
  | c :: cs => if c == ch then some cs else findCharFrom ch cs

/-- Loop body of `is_fuzzy_match` (lines 66-71): the running index `n` is
represented by the not-yet-searched suffix of `stext`. -/
def fuzzyScan : List Char → List Char → Bool
  | _, [] => true
  | stext, ch :: rest =>
    match findCharFrom ch stext with
    | none => false
    | some stext2 => fuzzyScan stext2 rest

/-- Source `is_fuzzy_match` (lines 62-71): uppercase both strings, then
greedily locate each character of `sfind` in `stext` left to right. -/
def is_fuzzy_match (stext sfind : List Char) : Bool :=
  fuzzyScan (upperStr stext) (upperStr sfind)

/-- Test for the regex class `[A-Z]` used in the case-split branch. -/
def isUpperAZ (c : Char) : Bool := 'A' ≤ c && c ≤ 'Z'

/-- Accumulator form of `re.findall('.[^A-Z]*', s)`: `cur` is the reversed
segment currently being built (its first character was consumed by `.`,
the following non-`[A-Z]` characters are appended).  The source never
passes strings containing a newline here (tokens and typed words cannot
contain one), so `.` is modelled as matching any character. -/
def camelSegsAux (cur : List Char) : List Char → List (List Char)
  | [] => [cur.reverse]
  | c :: rest =>
    if isUpperAZ c then cur.reverse :: camelSegsAux [c] rest
    else camelSegsAux (c :: cur) rest

/-- Model of `re.findall('.[^A-Z]*', s)` (source lines 81-82). -/
def camelSegs : List Char → List (List Char)
  | [] => []
  | c :: rest => camelSegsAux [c] rest

/-- Inner loop of the case-split branch (lines 87-91): every search
segment must lead the corresponding candidate segment. -/
def segsStartMatch : List (List Char) → List (List Char) → Bool
  | [], _ => true
  | _ :: _, [] => false
  | sw :: sws, ww :: wws => startswith ww sw && segsStartMatch sws wws

/-- Case-split acceptance (source lines 80-91).  The source indexes
`s[0]` and `begin[0]`, raising on an empty string; callers only pass
non-empty strings, and the exception is modelled in
`is_text_with_begin_exc` below. -/
def caseSplitMatch (s begin : List Char) : Bool :=
  match s, begin with
  | sc :: _, bc :: _ =>
    if sc == bc then
      let searchwords := camelSegs begin
      let wordwords := camelSegs s
      decide (searchwords.length ≤ wordwords.length) && segsStartMatch searchwords wordwords
    else false
  | _, _ => false

/-- Python `s.strip('_')` (line 94). -/
def stripUnderscores (s : List Char) : List Char :=
  ((s.dropWhile (fun c => c == '_')).reverse.dropWhile (fun c => c == '_')).reverse

/-- Accumulator form of `re.findall('[^_]+', ss)`: maximal non-underscore
runs, in order; empty runs are not produced. -/
def underscoreRunsAux (cur : List Char) : List Char → List (List Char)
  | [] => if cur.isEmpty then [] else [cur.reverse]
  | c :: rest =>
    if c == '_' then
      if cur.isEmpty then underscoreRunsAux [] rest
      else cur.reverse :: underscoreRunsAux [] rest
    else underscoreRunsAux (c :: cur) rest

/-- Model of `re.findall('[^_]+', ss)` (source line 101). -/
def underscoreRuns (s : List Char) : List (List Char) := underscoreRunsAux [] s

/-- Initials test of the underscore-split branch (lines 105-110): each
character of `begin` equals the first character of the corresponding
segment.  The call site guarantees `begin.length ≤ wordwords.length` and
that every segment is non-empty; the residual patterns return `false`. -/
def initialsMatch : List Char → List (List Char) → Bool
  | [], _ => true
  | _ :: _, [] => false
  | b :: bs, w :: ws =>
    match w with
    | [] => false
    | c :: _ => b == c && initialsMatch bs ws

/-- Length of the longest common leading substring (source lines 124-130). -/
def commonLen : List Char → List Char → Nat
  | a :: as, b :: bs => if a == b then commonLen as bs + 1 else 0
  | _, _ => 0

/-- Source `spl_match` (lines 121-144): recursive prefix-consumption match
of `begin` against consecutive word segments.  The source indexes
`words[0]`, raising on an empty list; all call sites pass a non-empty
list, and the `[]` pattern returns `false`. -/
def spl_match : List Char → List (List Char) → Bool
  | _, [] => false
  | begin, word :: rest =>
    let cl := commonLen begin word
    if cl == 0 then false
    else if begin.length == cl then true
    else if rest.isEmpty then false
    else (List.range cl).any fun i => spl_match (begin.drop (cl - i)) rest

/-- Underscore-split branch of `is_text_with_begin` (source lines 93-113).
Returns the acceptance flag together with the value of the local variable
`begin` after the branch, because line 98 reassigns `begin = begin.lower()`
and the final plain fallback (lines 115-118) reads the reassigned value. -/
def underscoreSplitStep (case_sens : Bool) (s begin : List Char) : Bool × List Char :=
  let ss := stripUnderscores s
  if ss.contains '_' then
    let begin2 := if !case_sens then lowerStr begin else begin
    let ss2 := if !case_sens then lowerStr ss else ss
    let wordwords := underscoreRuns ss2
    let hit :=
      (decide (begin2.length ≤ wordwords.length) && initialsMatch begin2 wordwords)
        || spl_match begin2 wordwords
    (hit, begin2)
  else (false, begin)

/-- Source `is_text_with_begin` (lines 74-118).  The final fallback
(lines 115-118) is character-for-character the body of `is_plain_match`,
so it is expressed through that definition, applied to the possibly
reassigned `begin`. -/
def is_text_with_begin (cfg : Config) (s begin : List Char) : Bool :=
  if cfg.option_fuzzy then is_fuzzy_match s begin
  else
    let csHit := cfg.option_case_split && caseSplitMatch s begin
    let us :=
      if cfg.option_underscore_split then underscoreSplitStep cfg.option_case_sens s begin
      else (false, begin)
    if csHit || us.1 then true
    else is_plain_match cfg.option_case_sens s us.2

/-- Exception-aware wrapper for `is_text_with_begin`: the source evaluates
`s[0] == begin[0]` (line 80) whenever `option_fuzzy` is off and
`option_case_split` is on, which raises `IndexError` when `s` or `begin`
is empty; every other path is total. -/
def is_text_with_begin_exc (cfg : Config) (s begin : List Char) : Except Unit Bool :=
  if !cfg.option_fuzzy && cfg.option_case_split && (s.isEmpty || begin.isEmpty) then
    .error ()
  else
    .ok (is_text_with_begin cfg s begin)


/-- Source constant `NONWORDS_DEFAULT` (line 8). -/
def NONWORDS_DEFAULT : List Char :=
  "-+*=/\\()[]\x7b\x7d<>\"\x27.,:;~?!@#$%^&|\x60…".data

/-- Characters appended to the regex character class beyond backslash-w
(source lines 158-161): every default non-word character that is absent
from the active `nonwords` option (regex escaping does not change the
matched set). -/
def w_content_extra (nonwords : List Char) : List Char :=
  NONWORDS_DEFAULT.filter (fun ch => !nonwords.contains ch)

/-- Semantic view of the regex string built by `get_regex` (lines 156-168):
the literal `begin`, optionally preceded by a dollar sigil at a word
boundary, then at least `repeats` characters of the bracket class. -/
structure ScanPattern where
  begin : List Char
  repeats : Int
  word_chars : List Char
deriving Repr, DecidableEq

/-- Source `get_regex` (lines 156-168); the global `option_min_len`
becomes the `min_len` parameter. -/
def get_regex (min_len : Int) (begin nonwords : List Char) : ScanPattern :=
  { begin := begin
    repeats := max 1 (min_len - begin.length)
    word_chars := w_content_extra nonwords }

/-- Membership in the bracket class `[\w ...]` of the built pattern
(ASCII model of backslash-w). -/
def pattern_word_char (p : ScanPattern) (c : Char) : Bool :=
  c.isAlphanum || c == '_' || p.word_chars.contains c

/-- Tokens matched by the built pattern: `\$?\b begin [class]{repeats,}`.
The word-boundary assertion constrains surrounding context, not the token
text itself, so it does not appear in this token-shape predicate. -/
def pattern_accepts (p : ScanPattern) (tok : List Char) : Prop :=
  ∃ run : List Char,
    (tok = p.begin ++ run ∨ tok = '$' :: (p.begin ++ run)) ∧
    p.repeats ≤ (run.length : Int) ∧
    ∀ c ∈ run, pattern_word_char p c = true

/-- Pattern built for one completion request: `get_completions` passes only
the first character of the typed word, `get_regex(word1[0], nonwords)`
(source line 297). -/
def request_scan_pattern (cfg : Config) (nonwords word1 : List Char) : ScanPattern :=
  get_regex cfg.option_min_len (word1.take 1) nonwords

/-- Source `isword` (lines 49-51): membership of a character in the word
set, with the global `nonwords` as a parameter. -/
def isword (nonwords : List Char) (c : Char) : Bool :=
  !((' ' :: '\t' :: nonwords).contains c)

/-- Python substring containment `needle in hay`. -/
def str_in (needle : List Char) : List Char → Bool
  | [] => needle.isEmpty
  | c :: rest => startswith (c :: rest) needle || str_in needle rest

/-- Source `is_lexer_allowed` (lines 44-46). -/
def is_lexer_allowed (option_lexers lex : List Char) : Bool :=
  str_in ",*,".data (',' :: option_lexers ++ [','])
    || str_in (',' :: lowerStr (if lex.isEmpty then "-".data else lex) ++ [','])
      (',' :: lowerStr option_lexers ++ [','])

/-- Model of one open editor: the buffer lines and the two properties the
plugin reads. -/
structure Editor where
  lines : List (List Char)
  lexer : List Char
  tab_title : List Char
deriving Repr, DecidableEq

/-- Source `get_editors` (lines 29-41): selects the editors to scan.  The
source has no `else` branch, so any `option_what_editors` outside
`{0, 1, 2}` falls through and implicitly returns `None`, modelled as
`none`. -/
def get_editors (cfg : Config) (ed : Editor) (handles : List Editor)
    (lexer : List Char) : Option (List Editor) :=
  if cfg.option_what_editors == 0 then some [ed]
  else if cfg.option_what_editors == 1 then some handles
  else if cfg.option_what_editors == 2 then
    some (handles.filter (fun e => e.lexer == lexer))
  else none

/-- Source `get_words_list` (lines 170-194): skip oversized documents,
otherwise take the distinct regex matches.  `scan` stands for the external
`re.findall` call (pattern, flags and text abstracted); `list(set(l))` is
modelled by `dedup`. -/
def get_words_list (cfg : Config) (scan : Editor → List (List Char)) (e : Editor) :
    List (List Char) :=
  if (e.lines.length : Int) > cfg.option_max_lines then []
  else (scan e).dedup

/-- ASCII whitespace recognized by Python `str.rstrip()` and regex `\s`. -/
def isPyWhite (c : Char) : Bool :=
  (" \t\n\r\x0b\x0c".data).contains c

/-- Python `s.rstrip()`. -/
def rstrip (s : List Char) : List Char :=
  (s.reverse.dropWhile isPyWhite).reverse

/-- Source `get_word` (lines 197-215): the word fragments immediately left
and right of the cursor column `x` on line `y`. -/
def get_word (nonwords : List Char) (lines : List (List Char)) (x y : Int) :
    Option (List Char × List Char) :=
  if 0 ≤ y ∧ y < (lines.length : Int) then
    let s := lines.getD y.toNat []
    if 0 < x ∧ x ≤ (s.length : Int) then
      let text1 := ((s.take x.toNat).reverse.takeWhile (isword nonwords)).reverse
      let text2 := (s.drop x.toNat).takeWhile (isword nonwords)
      some (text1, text2)
    else none
  else none

/-- Deterministic model of `re.match('^([^\s]+)\s([^(| ]+)([^|]*)\|?(.*)?$', line)`
(source line 253).  The anchored pattern is deterministic: group 1 is the
maximal leading non-whitespace run (shrinking it cannot help, because the
following `\s` would then face a non-whitespace character), the character
after it must exist (it is whitespace by maximality), group 2 is the
maximal run outside `(| `, group 3 the maximal run outside `|`, then an
optional `|` and the remainder as group 4 (`None` collapses to the empty
string at the use site, line 258). -/
def parse_acp_line (line : List Char) :
    Option (List Char × List Char × List Char × List Char) :=
  let pre := line.takeWhile (fun c => !isPyWhite c)
  if pre.isEmpty then none
  else
    match line.drop pre.length with
    | [] => none
    | _ :: afterSp =>
      let word := afterSp.takeWhile (fun c => !(c == '(' || c == '|' || c == ' '))
      if word.isEmpty then none
      else
        let rest2 := afterSp.drop word.length
        let args := rest2.takeWhile (fun c => !(c == '|'))
        let descr :=
          match rest2.drop args.length with
          | '|' :: d => d
          | _ => []
        some (pre, word, args, descr)

/-- Python `word.replace('%20', ' ')` (source line 263): left-to-right,
non-overlapping. -/
def replace20 : List Char → List Char
  | '%' :: '2' :: '0' :: rest => ' ' :: replace20 rest
  | c :: rest => c :: replace20 rest
  | [] => []

/-- Source format string `'{}|{}|{}' + chr(9) + '{}'` (line 245). -/
def acp_format (pre word args descr : List Char) : List Char :=
  pre ++ '|' :: (word ++ '|' :: (args ++ '\t' :: descr))

/-- Loop of `get_acp_words` over the dictionary lines (source lines
246-269), accumulating the plain-match entries, the non-plain entries and
the set of emitted words; an entry is prepended before the results of the
later lines, preserving file order.  `is_text_with_begin` is evaluated
before the equality guards, as in the source, and can raise. -/
def acp_scan (cfg : Config) (word1 word2 : List Char) :
    List (List Char) → Except Unit (List (List Char) × List (List Char) × List (List Char))
  | [] => .ok ([], [], [])
  | line0 :: rest =>
    let line := rstrip line0
    if line.isEmpty then acp_scan cfg word1 word2 rest
    else
      match parse_acp_line line with
      | none => acp_scan cfg word1 word2 rest
      | some (pre, wordRaw, args, descr) =>
        let word := rstrip wordRaw
        if (word.length : Int) < cfg.option_min_len then acp_scan cfg word1 word2 rest
        else
          match is_text_with_begin_exc cfg word word1 with
          | .error e => .error e
          | .ok keep =>
            match acp_scan cfg word1 word2 rest with
            | .error e => .error e
            | .ok (plainAcc, fuzzyAcc, wordsAcc) =>
              if keep && !(word == word1) && !(word == word1 ++ word2) then
                let wordRep := replace20 word
                let s := acp_format pre wordRep args descr
                if is_plain_match cfg.option_case_sens wordRep word1 then
                  .ok (s :: plainAcc, fuzzyAcc, wordRep :: wordsAcc)
                else
                  .ok (plainAcc, s :: fuzzyAcc, wordRep :: wordsAcc)
              else .ok (plainAcc, fuzzyAcc, wordsAcc)

/-- Accepted dictionary entries in file order, as pairs of the emitted word
(after `%20` decoding) and the formatted candidate string: a pure view of
`acp_scan` used to state ordering facts (the two accumulators of
`acp_scan` are the plain / non-plain partition of this list). -/
def acp_accepted (cfg : Config) (word1 word2 : List Char) :
    List (List Char) → List (List Char × List Char)
  | [] => []
  | line0 :: rest =>
    let line := rstrip line0
    if line.isEmpty then acp_accepted cfg word1 word2 rest
    else
      match parse_acp_line line with
      | none => acp_accepted cfg word1 word2 rest
      | some (pre, wordRaw, args, descr) =>
        let word := rstrip wordRaw
        if (word.length : Int) < cfg.option_min_len then acp_accepted cfg word1 word2 rest
        else
          if is_text_with_begin cfg word word1 && !(word == word1) && !(word == word1 ++ word2) then
            let wordRep := replace20 word
            (wordRep, acp_format pre wordRep args descr) :: acp_accepted cfg word1 word2 rest
          else acp_accepted cfg word1 word2 rest

/-- Header handling of `get_acp_words` (source lines 239-240): a first line
starting with `#chars` is deleted before the parsing loop. -/
def acp_body (acp_lines : List (List Char)) : List (List Char) :=
  match acp_lines with
  | l0 :: rest => if startswith l0 "#chars".data then rest else l0 :: rest
  | [] => []

/-- Final assembly of `get_acp_words` (line 271): the plain entries
followed by the non-plain entries, plus the word set. -/
def acp_assemble
    (r : Except Unit (List (List Char) × List (List Char) × List (List Char))) :
    Except Unit (List (List Char) × List (List Char)) :=
  match r with
  | .error e => .error e
  | .ok (p, f, ws) => .ok (p ++ f, ws)

/-- Source `get_acp_words` (lines 224-272).  The file lookup (lines
226-235) is abstracted by the `acpLines?` parameter: `none` models a
missing dictionary file and yields the empty result. -/
def get_acp_words_model (cfg : Config) (acpLines? : Option (List (List Char)))
    (word1 word2 : List Char) : Except Unit (List (List Char) × List (List Char)) :=
  match acpLines? with
  | none => .ok ([], [])
  | some ls => acp_assemble (acp_scan cfg word1 word2 (acp_body ls))

/-- List comprehension `[w for w in words if is_text_with_begin(w, word1)]`
(source lines 343-345), with the possible `IndexError` of each predicate
call propagated in source order. -/
def filter_itwb (cfg : Config) (begin : List Char) :
    List (List Char) → Except Unit (List (List Char))
  | [] => .ok []
  | w :: ws =>
    match is_text_with_begin_exc cfg w begin with
    | .error e => .error e
    | .ok keep =>
      match filter_itwb cfg begin ws with
      | .error e => .error e
      | .ok l => .ok (if keep then w :: l else l)

/-- Python `'; '.join(ts)`. -/
def joinSemi : List (List Char) → List Char
  | [] => []
  | [t] => t
  | t :: ts => t ++ "; ".data ++ joinSemi ts

/-- Source `search_tab` closure (lines 311-321): provenance suffix naming
the tabs whose scan produced the word. -/
def search_tab (cfg : Config) (words_by_tabs : List (List (List Char)))
    (tab_titles : List (List Char)) (w : List Char) : List Char :=
  if cfg.option_what_editors == 1 || cfg.option_what_editors == 2 then
    let tabs_found := (List.range words_by_tabs.length).filter
      (fun i => (words_by_tabs.getD i []).contains w)
    if tabs_found.isEmpty then []
    else '|' :: joinSemi (tabs_found.map (fun i => tab_titles.getD i []))
  else []

/-- Source `get_prefix` closure (lines 334-335); renamed here, the value
is the kind marker of an emitted candidate. -/
def word_kind_mark (w : List Char) : List Char :=
  if startswith w "$".data then "var".data else "text".data

/-- Decoration of one buffer candidate (source line 357). -/
def decorate_word (cfg : Config) (words_by_tabs : List (List (List Char)))
    (tab_titles : List (List Char)) (w : List Char) : List Char :=
  word_kind_mark w ++ '|' :: (w ++ search_tab cfg words_by_tabs tab_titles w)

/-- Tab titles collected in the editors loop (source lines 303-304). -/
def tab_titles_of (eds : List Editor) : List (List Char) :=
  eds.map (fun e => e.tab_title.map (fun c => if c == '|' then '/' else c))

/-- Buffer tokens after union and sorting (source lines 307-309 and
326-327): concatenate the per-tab scan results; when non-empty,
deduplicate (`set`) and sort (`sorted`, modelled by the stable insertion
sort over the lexicographic order on strings). -/
def buffer_words_sorted (cfg : Config) (scan : Editor → List (List Char))
    (eds : List Editor) : List (List Char) :=
  let words0 := (eds.map (get_words_list cfg scan)).flatten
  if words0.isEmpty then words0 else List.insertionSort (· ≤ ·) words0.dedup

/-- Dictionary entries that reach the emitted lists, in file order, for one
request: empty when the dictionary pass is disabled or the file is
missing. -/
def acp_file_entries (cfg : Config) (with_acp : Bool)
    (acpLines? : Option (List (List Char))) (word1 word2 : List Char) :
    List (List Char × List Char) :=
  if with_acp then
    match acpLines? with
    | none => []
    | some ls => acp_accepted cfg word1 word2 (acp_body ls)
  else []

/-- Return value of `get_completions` (line 358). -/
structure CompResult where
  words_decorated : List (List Char)
  acp_words : List (List Char)
  word1 : List Char
  word2 : List Char
deriving Repr, DecidableEq

/-- Source `get_completions` (lines 275-358).  External collaborators are
parameters: `nonwords` is the option value fetched at line 282, `handles`
the open-editor list, `scan` the regex scanner, `acpLines?` the dictionary
file contents.  `.ok none` models the early `return None` paths; the
`.error` value models the `TypeError` raised by the `for` loop at line 301
when `get_editors` returns `None`, and the `IndexError` cases inside
`is_text_with_begin`.  The `lex is None` guard (line 278) is unreachable
here because the modelled property read always yields a string. -/
def get_completions_model (cfg : Config) (nonwords : List Char) (ed_self : Editor)
    (handles : List Editor) (scan : Editor → List (List Char))
    (acpLines? : Option (List (List Char))) (x0 y0 : Int)
    (with_acp : Bool) (ignore_lexer : Bool) : Except Unit (Option CompResult) :=
  let lex := ed_self.lexer
  if !ignore_lexer && !is_lexer_allowed cfg.option_lexers lex then .ok none
  else
    match get_word nonwords ed_self.lines x0 y0 with
    | none => .ok none
    | some (word1, word2) =>
      if word1.isEmpty then .ok none
      else if (word1.headD ' ').isDigit then .ok none
      else
        match get_editors cfg ed_self handles lex with
        | none => .error ()
        | some eds =>
          let words_by_tabs := eds.map (get_words_list cfg scan)
          let tab_titles := tab_titles_of eds
          let words1 := buffer_words_sorted cfg scan eds
          match (if with_acp then get_acp_words_model cfg acpLines? word1 word2
                 else .ok ([], [])) with
          | .error e => .error e
          | .ok (acp_words, acp_set) =>
            if words1.isEmpty && acp_words.isEmpty then .ok none
            else
              let word1and2 := word1 ++ word2
              let words2 := words1.filter
                (fun w => !acp_set.contains w && !(w == word1) && !(w == word1and2))
              match filter_itwb cfg word1 words2 with
              | .error e => .error e
              | .ok words3 =>
                let wordsF :=
                  words3.filter (fun w => is_plain_match cfg.option_case_sens w word1)
                    ++ words3.filter (fun w => !is_plain_match cfg.option_case_sens w word1)
                let words_decorated := wordsF.map (decorate_word cfg words_by_tabs tab_titles)
                .ok (some ⟨words_decorated, acp_words, word1, word2⟩)


/-! Helper lemmas about the string primitives. -/

theorem startswith_iff (s p : List Char) : startswith s p = true ↔ List.IsPrefix p s := by
  induction p generalizing s with
  | nil => simp [startswith]
  | cons pc ps ih =>
    cases s with
    | nil => simp [startswith]
    | cons sc ss =>
      rw [show startswith (sc :: ss) (pc :: ps) = (sc == pc && startswith ss ps) from rfl,
        Bool.and_eq_true, beq_iff_eq, ih, List.cons_prefix_cons]
      exact ⟨fun ⟨h1, h2⟩ => ⟨h1.symm, h2⟩, fun ⟨h1, h2⟩ => ⟨h1.symm, h2⟩⟩

theorem findCharFrom_some {ch : Char} {text t' : List Char}
    (h : findCharFrom ch text = some t') : ∃ pre, text = pre ++ ch :: t' := by
  induction text generalizing t' with
  | nil => simp [findCharFrom] at h
  | cons c cs ih =>
    by_cases hc : c == ch
    · simp [findCharFrom, hc] at h
      exact ⟨[], by simp [h, (beq_iff_eq ..).mp hc]⟩
    · simp [findCharFrom, hc] at h
      obtain ⟨pre, hpre⟩ := ih h
      exact ⟨c :: pre, by simp [hpre]⟩

theorem findCharFrom_of_sublist {ch : Char} {rest text : List Char}
    (h : List.Sublist (ch :: rest) text) :
    ∃ t', findCharFrom ch text = some t' ∧ List.Sublist rest t' := by
  induction text with
  | nil => cases h
  | cons c cs ih =>
    by_cases hc : c == ch
    · refine ⟨cs, by simp [findCharFrom, hc], ?_⟩
      cases h with
      | cons _ h' => exact (List.sublist_cons_self ch rest).trans h'
      | cons₂ _ h' => exact h'
    · cases h with
      | cons _ h' =>
        obtain ⟨t', ht', hsub⟩ := ih h'
        exact ⟨t', by simp [findCharFrom, hc, ht'], hsub⟩
      | cons₂ _ _ => simp at hc

theorem fuzzyScan_iff (sfind stext : List Char) :
    fuzzyScan stext sfind = true ↔ List.Sublist sfind stext := by
  induction sfind generalizing stext with
  | nil => simp [fuzzyScan, List.nil_sublist]
  | cons ch rest ih =>
    constructor
    · intro h
      unfold fuzzyScan at h
      cases hfind : findCharFrom ch stext with
      | none => rw [hfind] at h; simp at h
      | some t' =>
        rw [hfind] at h
        obtain ⟨pre, hpre⟩ := findCharFrom_some hfind
        have hsub : List.Sublist (ch :: rest) (ch :: t') := ((ih t').mp h).cons₂ ch
        rw [hpre]
        exact hsub.trans (List.sublist_append_right pre (ch :: t'))
    · intro h
      obtain ⟨t', ht', hsub⟩ := findCharFrom_of_sublist h
      unfold fuzzyScan
      rw [ht']
      exact (ih t').mpr hsub

/-- C1: the fuzzy match predicate is exactly the is-subsequence relation on
uppercased strings, and in particular `is_fuzzy_match("FooBarBaz","fbb")`
holds while `is_fuzzy_match("FooBarBaz","fbx")` does not. -/
theorem fuzzy_is_subsequence_C1 :
    (∀ stext sfind : List Char,
        is_fuzzy_match stext sfind = true ↔ List.Sublist (upperStr sfind) (upperStr stext))
      ∧ is_fuzzy_match "FooBarBaz".data "fbb".data = true
      ∧ is_fuzzy_match "FooBarBaz".data "fbx".data = false := by
  refine ⟨fun stext sfind => ?_, by decide, by decide⟩
  exact fuzzyScan_iff (upperStr sfind) (upperStr stext)

/-- C10: every plain match is a fuzzy match, for either value of the
case-sensitivity flag. -/
theorem plain_implies_fuzzy_C10 (case_sens : Bool) (stext sfind : List Char)
    (h : is_plain_match case_sens stext sfind = true) :
    is_fuzzy_match stext sfind = true := by
  rw [is_fuzzy_match, fuzzyScan_iff]
  unfold is_plain_match at h
  cases case_sens with
  | true =>
    simp only [if_true] at h
    exact ((startswith_iff _ _).mp h).sublist.map Char.toUpper
  | false =>
    simp only [Bool.false_eq_true, if_false] at h
    exact ((startswith_iff _ _).mp h).sublist

theorem plain_implies_fuzzy_C10_witness :
    is_plain_match true "text".data "te".data = true
      ∧ is_fuzzy_match "text".data "te".data = true :=
  ⟨by decide, plain_implies_fuzzy_C10 true "text".data "te".data (by decide)⟩

/-- C2: when the fuzzy flag is enabled the combined strategy predicate
equals the fuzzy predicate alone, whatever the case-split and
underscore-split flags are — fuzzy supersedes the rest of the chain. -/
theorem fuzzy_supersedes_C2 (cfg : Config) (s begin : List Char)
    (hf : cfg.option_fuzzy = true) (hb : begin ≠ []) :
    is_text_with_begin cfg s begin = is_fuzzy_match s begin := by
  unfold is_text_with_begin
  rw [hf]
  simp

theorem fuzzy_supersedes_C2_witness :
    (Config.mk [] 3 true 0 10000 true false true true true).option_fuzzy = true
      ∧ ("FooBarBaz".data : List Char) ≠ []
      ∧ is_text_with_begin (Config.mk [] 3 true 0 10000 true false true true true)
          "FooBarBaz".data "fbb".data
        = is_fuzzy_match "FooBarBaz".data "fbb".data :=
  ⟨rfl, by decide,
    fuzzy_supersedes_C2 (Config.mk [] 3 true 0 10000 true false true true true)
      "FooBarBaz".data "fbb".data rfl (by decide)⟩

/-- C9: with case-split enabled (fuzzy and underscore-split off) the
combined predicate is the exact-comparison case-split test together with
the plain fallback, for either value of the case-sensitivity flag — the
case-split path itself never folds case.  Concretely, with
`caseSensitive = false` the candidate `PropLexerFile` is rejected for the
prefix `plF` (the case-split path compares `P` with `p` exactly and the
upper-folded plain fallback also fails), while the case-matched prefix
`PLF` is accepted. -/
theorem case_split_exact_C9 :
    (∀ (cfg : Config) (s begin : List Char),
        cfg.option_fuzzy = false → cfg.option_case_split = true →
        cfg.option_underscore_split = false →
        is_text_with_begin cfg s begin
          = (caseSplitMatch s begin || is_plain_match cfg.option_case_sens s begin))
      ∧ is_text_with_begin (Config.mk [] 3 false 0 10000 true false true false false)
          "PropLexerFile".data "plF".data = false
      ∧ caseSplitMatch "PropLexerFile".data "plF".data = false
      ∧ is_text_with_begin (Config.mk [] 3 false 0 10000 true false true false false)
          "PropLexerFile".data "PLF".data = true := by
  refine ⟨fun cfg s begin hf hcs hus => ?_, by decide, by decide, by decide⟩
  unfold is_text_with_begin
  rw [hf, hcs, hus]
  cases h : caseSplitMatch s begin <;> simp [h]

theorem case_split_exact_C9_witness :
    is_text_with_begin (Config.mk [] 3 false 0 10000 true false true false false)
        "PropLexerFile".data "plF".data
      = (caseSplitMatch "PropLexerFile".data "plF".data
          || is_plain_match false "PropLexerFile".data "plF".data) :=
  case_split_exact_C9.1 (Config.mk [] 3 false 0 10000 true false true false false)
    "PropLexerFile".data "plF".data rfl rfl rfl

/-- C3: characterization of the recursive underscore-split matcher: on a
non-empty segment list it succeeds exactly when the longest common leading
substring with the first segment is non-empty and either consumes all of
the prefix, or (with further segments remaining) some split point `d`
between 1 and the common length lets the rest of the prefix match the
remaining segments; and `spl_match("pl", ["prop","lexer","file"])`
succeeds. -/
theorem spl_match_characterization_C3 :
    (∀ (begin word : List Char) (rest : List (List Char)),
        spl_match begin (word :: rest) = true ↔
          0 < commonLen begin word ∧
            (begin.length = commonLen begin word ∨
              (rest ≠ [] ∧ ∃ d, 1 ≤ d ∧ d ≤ commonLen begin word ∧
                spl_match (begin.drop d) rest = true)))
      ∧ spl_match "pl".data ["prop".data, "lexer".data, "file".data] = true := by
  refine ⟨fun begin word rest => ?_, by decide⟩
  rw [spl_match]
  by_cases h0 : commonLen begin word = 0
  · simp [h0]
  · have hpos : 0 < commonLen begin word := Nat.pos_of_ne_zero h0
    by_cases hlen : begin.length = commonLen begin word
    · simp [h0, hlen, hpos]
    · by_cases hrest : rest = []
      · simp [h0, hlen, hrest, List.isEmpty_iff, hpos]
      · simp only [beq_iff_eq, h0, if_false, hlen, List.isEmpty_iff, hrest,
          List.any_eq_true, List.mem_range, hpos, true_and, false_or, ne_eq,
          not_false_eq_true]
        constructor
        · rintro ⟨i, hi, hm⟩
          exact ⟨commonLen begin word - i, by omega, by omega, hm⟩
        · rintro ⟨d, hd1, hd2, hm⟩
          refine ⟨commonLen begin word - d, by omega, ?_⟩
          have : commonLen begin word - (commonLen begin word - d) = d := by omega
          rw [this]
          exact hm

/-- C4 counterexample: with `min_len = 3` and a typed fragment `left = "ab"`
of length 2, the claimed continuation floor `max(1, minLength - len(left))`
is 1, but the pattern built for the request carries
`max(1, minLength - 1) = 2`, because `get_completions` passes only
`word1[0]` to `get_regex` (source line 297). -/
theorem request_pattern_repeats_C4_counterexample :
    (request_scan_pattern (Config.mk [] 3 true 0 10000 true false false false true)
        [] "ab".data).repeats
      ≠ max 1 ((3 : Int) - ("ab".data.length : Int)) := by decide

/-- C4 (amended): the scan pattern built for a request fixes the first
character of `left` and requires a continuation run of word characters of
length at least `max(1, minLength - 1)` — a constant independent of how
much of `left` beyond its first character has been typed, because the
source passes the single character `word1[0]` to `get_regex`. -/
theorem request_pattern_repeats_C4 (cfg : Config) (nonwords word1 tok : List Char)
    (h : word1 ≠ []) :
    (request_scan_pattern cfg nonwords word1).begin = word1.take 1
      ∧ (request_scan_pattern cfg nonwords word1).repeats
          = max 1 (cfg.option_min_len - 1)
      ∧ (pattern_accepts (request_scan_pattern cfg nonwords word1) tok ↔
          ∃ run : List Char,
            (tok = word1.take 1 ++ run ∨ tok = '$' :: (word1.take 1 ++ run))
              ∧ max 1 (cfg.option_min_len - 1) ≤ (run.length : Int)
              ∧ ∀ c ∈ run,
                  pattern_word_char (request_scan_pattern cfg nonwords word1) c = true) := by
  have hlen : (word1.take 1).length = 1 := by
    rw [List.length_take]
    exact Nat.min_eq_left (List.length_pos.mpr h)
  have hrep : (request_scan_pattern cfg nonwords word1).repeats
      = max 1 (cfg.option_min_len - 1) := by
    show max 1 (cfg.option_min_len - ((word1.take 1).length : Int)) = _
    rw [hlen]
    norm_num
  refine ⟨rfl, hrep, ?_⟩
  unfold pattern_accepts
  rw [show (request_scan_pattern cfg nonwords word1).begin = word1.take 1 from rfl, hrep]

theorem request_pattern_repeats_C4_witness :
    (request_scan_pattern (Config.mk [] 3 true 0 10000 true false false false true)
        [] "ab".data).begin = "ab".data.take 1
      ∧ (request_scan_pattern (Config.mk [] 3 true 0 10000 true false false false true)
          [] "ab".data).repeats = max 1 ((3 : Int) - 1)
      ∧ (pattern_accepts
            (request_scan_pattern (Config.mk [] 3 true 0 10000 true false false false true)
              [] "ab".data) "axy".data ↔
          ∃ run : List Char,
            ("axy".data = "ab".data.take 1 ++ run
                ∨ "axy".data = '$' :: ("ab".data.take 1 ++ run))
              ∧ max 1 ((3 : Int) - 1) ≤ (run.length : Int)
              ∧ ∀ c ∈ run,
                  pattern_word_char
                    (request_scan_pattern (Config.mk [] 3 true 0 10000 true false false false true)
                      [] "ab".data) c = true) :=
  request_pattern_repeats_C4 (Config.mk [] 3 true 0 10000 true false false false true)
    [] "ab".data "axy".data (by decide)

/-- C7: dictionary parsing.  The line `'^ foreach(x)|loop over x'` parses
into trigger `^`, word `foreach`, call-signature fragment `(x)` and
description `loop over x`; a first line beginning with `#chars` is removed
before the loop and therefore contributes no entry; a line the grammar
does not match is skipped without affecting the rest. -/
theorem acp_parsing_C7 :
    parse_acp_line "^ foreach(x)|loop over x".data
        = some ("^".data, "foreach".data, "(x)".data, "loop over x".data)
      ∧ (∀ (cfg : Config) (word1 word2 l0 : List Char) (rest : List (List Char)),
          startswith l0 "#chars".data = true →
          get_acp_words_model cfg (some (l0 :: rest)) word1 word2
            = acp_assemble (acp_scan cfg word1 word2 rest))
      ∧ (∀ (cfg : Config) (word1 word2 line : List Char) (rest : List (List Char)),
          parse_acp_line (rstrip line) = none →
          acp_scan cfg word1 word2 (line :: rest) = acp_scan cfg word1 word2 rest) := by
  refine ⟨by decide, fun cfg word1 word2 l0 rest hh => ?_, fun cfg word1 word2 line rest hp => ?_⟩
  · show acp_assemble (acp_scan cfg word1 word2 (acp_body (l0 :: rest))) = _
    rw [show acp_body (l0 :: rest)
        = if startswith l0 "#chars".data = true then rest else l0 :: rest from rfl,
      if_pos hh]
  · rw [acp_scan]
    by_cases he : (rstrip line).isEmpty
    · simp [he]
    · simp [he, hp]

theorem acp_parsing_C7_witness :
    get_acp_words_model (Config.mk [] 3 true 0 10000 true false false false true)
        (some ("#chars .$".data :: ["^ foreach(x)|loop over x".data]))
        "fo".data "o".data
      = acp_assemble
          (acp_scan (Config.mk [] 3 true 0 10000 true false false false true)
            "fo".data "o".data ["^ foreach(x)|loop over x".data])
      ∧ acp_scan (Config.mk [] 3 true 0 10000 true false false false true)
          "fo".data "o".data ("justoneword".data :: [])
        = acp_scan (Config.mk [] 3 true 0 10000 true false false false true)
          "fo".data "o".data [] :=
  ⟨acp_parsing_C7.2.1 (Config.mk [] 3 true 0 10000 true false false false true)
      "fo".data "o".data "#chars .$".data ["^ foreach(x)|loop over x".data] (by decide),
    acp_parsing_C7.2.2 (Config.mk [] 3 true 0 10000 true false false false true)
      "fo".data "o".data "justoneword".data [] (by decide)⟩

/-! Helper lemmas about the exception-aware pipeline pieces. -/

theorem is_text_with_begin_exc_ok {cfg : Config} {s begin : List Char} {b : Bool}
    (h : is_text_with_begin_exc cfg s begin = .ok b) :
    b = is_text_with_begin cfg s begin := by
  unfold is_text_with_begin_exc at h
  split at h
  · cases h
  · cases h; rfl

theorem is_text_with_begin_exc_of_ne {cfg : Config} {s begin : List Char}
    (hs : s ≠ []) (hb : begin ≠ []) :
    is_text_with_begin_exc cfg s begin = .ok (is_text_with_begin cfg s begin) := by
  simp [is_text_with_begin_exc, List.isEmpty_iff, hs, hb]

theorem filter_itwb_ok {cfg : Config} {begin : List Char} {ws l : List (List Char)}
    (h : filter_itwb cfg begin ws = .ok l) :
    l = ws.filter (fun w => is_text_with_begin cfg w begin) := by
  induction ws generalizing l with
  | nil => rw [filter_itwb] at h; cases h; rfl
  | cons w ws ih =>
    rw [filter_itwb] at h
    cases hexc : is_text_with_begin_exc cfg w begin with
    | error e => rw [hexc] at h; cases h
    | ok keep =>
      rw [hexc] at h
      cases hrec : filter_itwb cfg begin ws with
      | error e => rw [hrec] at h; cases h
      | ok l' =>
        rw [hrec] at h
        cases h
        rw [List.filter_cons, ih hrec, ← is_text_with_begin_exc_ok hexc]

theorem filter_itwb_total {cfg : Config} {begin : List Char} (hb : begin ≠ [])
    {ws : List (List Char)} (hws : ∀ w ∈ ws, w ≠ []) :
    filter_itwb cfg begin ws
      = .ok (ws.filter (fun w => is_text_with_begin cfg w begin)) := by
  induction ws with
  | nil => rfl
  | cons w ws ih =>
    rw [filter_itwb, is_text_with_begin_exc_of_ne (hws w (by simp)) hb,
      ih (fun x hx => hws x (by simp [hx])), List.filter_cons]

theorem acp_scan_ok {cfg : Config} {word1 word2 : List Char}
    {lines p f ws : List (List Char)}
    (h : acp_scan cfg word1 word2 lines = .ok (p, f, ws)) :
    p = ((acp_accepted cfg word1 word2 lines).filter
          (fun e => is_plain_match cfg.option_case_sens e.1 word1)).map Prod.snd
      ∧ f = ((acp_accepted cfg word1 word2 lines).filter
          (fun e => !is_plain_match cfg.option_case_sens e.1 word1)).map Prod.snd
      ∧ ws = (acp_accepted cfg word1 word2 lines).map Prod.fst := by
  induction lines generalizing p f ws with
  | nil => rw [acp_scan] at h; cases h; exact ⟨rfl, rfl, rfl⟩
  | cons line0 rest ih =>
    rw [acp_scan] at h
    rw [acp_accepted]
    by_cases hline : (rstrip line0).isEmpty = true
    · rw [if_pos hline] at h
      rw [if_pos hline]
      exact ih h
    · rw [if_neg hline] at h
      rw [if_neg hline]
      cases hparse : parse_acp_line (rstrip line0) with
      | none =>
        rw [hparse] at h
        exact ih h
      | some quad =>
        obtain ⟨pre, wordRaw, args, descr⟩ := quad
        rw [hparse] at h
        dsimp only [] at h ⊢
        by_cases hmin : ((rstrip wordRaw).length : Int) < cfg.option_min_len
        · rw [if_pos hmin] at h
          rw [if_pos hmin]
          exact ih h
        · rw [if_neg hmin] at h
          rw [if_neg hmin]
          cases hexc : is_text_with_begin_exc cfg (rstrip wordRaw) word1 with
          | error e => rw [hexc] at h; cases h
          | ok keep =>
            rw [hexc] at h
            cases hrec : acp_scan cfg word1 word2 rest with
            | error e => rw [hrec] at h; cases h
            | ok triple =>
              obtain ⟨p', f', ws'⟩ := triple
              rw [hrec] at h
              dsimp only [] at h
              obtain ⟨ihp, ihf, ihw⟩ := ih hrec
              rw [← is_text_with_begin_exc_ok hexc]
              by_cases hcond : (keep && !(rstrip wordRaw == word1)
                  && !(rstrip wordRaw == word1 ++ word2)) = true
              · rw [if_pos hcond] at h
                rw [if_pos hcond]
                by_cases hplain : is_plain_match cfg.option_case_sens
                    (replace20 (rstrip wordRaw)) word1 = true
                · rw [if_pos hplain] at h
                  cases h
                  refine ⟨?_, ?_, ?_⟩ <;>
                    simp [List.filter_cons, hplain, ihp, ihf, ihw]
                · rw [if_neg hplain] at h
                  cases h
                  refine ⟨?_, ?_, ?_⟩ <;>
                    simp [List.filter_cons, Bool.eq_false_iff.mpr hplain, ihp, ihf, ihw]
              · rw [if_neg hcond] at h
                rw [if_neg hcond]
                cases h
                exact ⟨ihp, ihf, ihw⟩

theorem acp_scan_total {cfg : Config} {word1 word2 : List Char} (hb : word1 ≠ [])
    (hmin : (1 : Int) ≤ cfg.option_min_len) (lines : List (List Char)) :
    ∃ t, acp_scan cfg word1 word2 lines = .ok t := by
  induction lines with
  | nil => exact ⟨([], [], []), rfl⟩
  | cons line0 rest ih =>
    obtain ⟨t, ht⟩ := ih
    rw [acp_scan]
    by_cases hline : (rstrip line0).isEmpty = true
    · rw [if_pos hline]; exact ⟨t, ht⟩
    · rw [if_neg hline]
      cases hparse : parse_acp_line (rstrip line0) with
      | none => exact ⟨t, ht⟩
      | some quad =>
        obtain ⟨pre, wordRaw, args, descr⟩ := quad
        dsimp only []
        by_cases hlen : ((rstrip wordRaw).length : Int) < cfg.option_min_len
        · rw [if_pos hlen]; exact ⟨t, ht⟩
        · rw [if_neg hlen]
          have hword : rstrip wordRaw ≠ [] := by
            intro hempty
            rw [hempty] at hlen
            simp at hlen
            omega
          rw [is_text_with_begin_exc_of_ne hword hb, ht]
          obtain ⟨p', f', ws'⟩ := t
          dsimp only []
          by_cases hcond : (is_text_with_begin cfg (rstrip wordRaw) word1
              && !(rstrip wordRaw == word1) && !(rstrip wordRaw == word1 ++ word2)) = true
          · rw [if_pos hcond]
            by_cases hplain : is_plain_match cfg.option_case_sens
                (replace20 (rstrip wordRaw)) word1 = true
            · rw [if_pos hplain]; exact ⟨_, rfl⟩
            · rw [if_neg hplain]; exact ⟨_, rfl⟩
          · rw [if_neg hcond]; exact ⟨_, rfl⟩

theorem replace20_eq_or_space (w : List Char) :
    replace20 w = w ∨ ' ' ∈ replace20 w := by
  induction w using replace20.induct with
  | case1 rest ih => right; simp [replace20]
  | case2 c rest h ih =>
    rw [replace20]
    · cases ih with
      | inl he => left; rw [he]
      | inr hs => right; exact List.mem_cons_of_mem c hs
    · exact h
  | case3 => left; rfl

theorem get_word_chars {nonwords : List Char} {lines : List (List Char)} {x y : Int}
    {w1 w2 : List Char} (h : get_word nonwords lines x y = some (w1, w2)) :
    (∀ c ∈ w1, isword nonwords c = true) ∧ ∀ c ∈ w2, isword nonwords c = true := by
  unfold get_word at h
  split at h
  · dsimp only [] at h
    split at h
    · cases h
      constructor
      · intro c hc
        exact List.mem_takeWhile_imp (List.mem_reverse.mp hc)
      · intro c hc
        exact List.mem_takeWhile_imp hc
    · cases h
  · cases h

theorem isword_no_space {nonwords w : List Char}
    (h : ∀ c ∈ w, isword nonwords c = true) : ' ' ∉ w := by
  intro hmem
  have hw := h ' ' hmem
  simp [isword] at hw

/-- Every accepted dictionary entry carries a `%20`-decoded word whose raw
form passed the strategy and inequality guards of the loop. -/
theorem acp_accepted_mem {cfg : Config} {word1 word2 : List Char}
    {lines : List (List Char)} {e : List Char × List Char}
    (h : e ∈ acp_accepted cfg word1 word2 lines) :
    ∃ word : List Char, e.1 = replace20 word
      ∧ is_text_with_begin cfg word word1 = true
      ∧ word ≠ word1 ∧ word ≠ word1 ++ word2 := by
  induction lines with
  | nil => rw [acp_accepted] at h; cases h
  | cons line0 rest ih =>
    rw [acp_accepted] at h
    by_cases hline : (rstrip line0).isEmpty = true
    · rw [if_pos hline] at h; exact ih h
    · rw [if_neg hline] at h
      cases hparse : parse_acp_line (rstrip line0) with
      | none => rw [hparse] at h; exact ih h
      | some quad =>
        obtain ⟨pre, wordRaw, args, descr⟩ := quad
        rw [hparse] at h
        dsimp only [] at h
        by_cases hmin : ((rstrip wordRaw).length : Int) < cfg.option_min_len
        · rw [if_pos hmin] at h; exact ih h
        · rw [if_neg hmin] at h
          by_cases hcond : (is_text_with_begin cfg (rstrip wordRaw) word1
              && !(rstrip wordRaw == word1) && !(rstrip wordRaw == word1 ++ word2)) = true
          · rw [if_pos hcond] at h
            rcases List.mem_cons.mp h with he | hrest
            · subst he
              simp only [Bool.and_eq_true, Bool.not_eq_eq_eq_not, Bool.not_true,
                beq_eq_false_iff_ne, ne_eq] at hcond
              exact ⟨rstrip wordRaw, rfl, hcond.1.1, hcond.1.2, hcond.2⟩
            · exact ih hrest
          · rw [if_neg hcond] at h; exact ih h

theorem no_space_ne_of_accepted {word1 word : List Char} (hs : ' ' ∉ word1)
    (hne : word ≠ word1) : replace20 word ≠ word1 := by
  cases replace20_eq_or_space word with
  | inl he => rw [he]; exact hne
  | inr hsp =>
    intro heq
    rw [heq] at hsp
    exact hs hsp

/-- Inversion of the dictionary branch of `get_completions` (line 329): a
successful result is the plain-first partition of the accepted entries in
file order, and the word set is their word components. -/
theorem acp_branch_ok {cfg : Config} {with_acp : Bool}
    {acpLines? : Option (List (List Char))} {word1 word2 : List Char}
    {aw aset : List (List Char)}
    (h : (if with_acp then get_acp_words_model cfg acpLines? word1 word2
          else .ok ([], [])) = .ok (aw, aset)) :
    aw = ((acp_file_entries cfg with_acp acpLines? word1 word2).filter
            (fun e => is_plain_match cfg.option_case_sens e.1 word1)).map Prod.snd
          ++ ((acp_file_entries cfg with_acp acpLines? word1 word2).filter
            (fun e => !is_plain_match cfg.option_case_sens e.1 word1)).map Prod.snd
      ∧ aset = (acp_file_entries cfg with_acp acpLines? word1 word2).map Prod.fst := by
  unfold acp_file_entries
  by_cases hwa : with_acp = true
  · rw [if_pos hwa] at h ⊢
    cases acpLines? with
    | none => cases h; exact ⟨rfl, rfl⟩
    | some ls =>
      unfold get_acp_words_model at h
      dsimp only [] at h ⊢
      cases hscan : acp_scan cfg word1 word2 (acp_body ls) with
      | error e => rw [hscan] at h; cases h
      | ok t =>
        obtain ⟨p, f, ws⟩ := t
        rw [hscan] at h
        unfold acp_assemble at h
        cases h
        obtain ⟨hp, hf, hw⟩ := acp_scan_ok hscan
        exact ⟨by rw [hp, hf], hw⟩
  · rw [if_neg hwa] at h ⊢
    cases h
    exact ⟨rfl, rfl⟩

theorem buffer_words_sorted_sorted (cfg : Config) (scan : Editor → List (List Char))
    (eds : List Editor) : List.Sorted (· ≤ ·) (buffer_words_sorted cfg scan eds) := by
  unfold buffer_words_sorted
  dsimp only []
  split
  next hcond =>
    rw [List.isEmpty_iff.mp hcond]
    exact List.sorted_nil
  next => exact List.sorted_insertionSort _ _

theorem buffer_words_sorted_mem {cfg : Config} {scan : Editor → List (List Char)}
    {eds : List Editor} {w : List Char} (h : w ∈ buffer_words_sorted cfg scan eds) :
    ∃ e ∈ eds, w ∈ scan e := by
  unfold buffer_words_sorted at h
  dsimp only [] at h
  split at h
  next hcond => rw [List.isEmpty_iff.mp hcond] at h; cases h
  next =>
    have hmem := (List.perm_insertionSort (· ≤ ·) _).mem_iff.mp h
    rw [List.mem_dedup] at hmem
    obtain ⟨l, hl, hw⟩ := List.mem_flatten.mp hmem
    obtain ⟨e, he, rfl⟩ := List.mem_map.mp hl
    unfold get_words_list at hw
    split at hw
    · cases hw
    · exact ⟨e, he, List.mem_dedup.mp hw⟩

/-- Inversion of a successful completion request: the returned buffer list
is the decorated plain-first partition of the sorted, filtered scan tokens,
and the dictionary list is the plain-first partition of the accepted file
entries. -/
theorem get_completions_model_ok
    {cfg : Config} {nonwords : List Char} {ed_self : Editor} {handles : List Editor}
    {scan : Editor → List (List Char)} {acpLines? : Option (List (List Char))}
    {x0 y0 : Int} {with_acp ignore_lexer : Bool} {res : CompResult}
    (h : get_completions_model cfg nonwords ed_self handles scan acpLines? x0 y0
        with_acp ignore_lexer = .ok (some res)) :
    ∃ eds words3,
      get_word nonwords ed_self.lines x0 y0 = some (res.word1, res.word2)
        ∧ res.word1 ≠ []
        ∧ get_editors cfg ed_self handles ed_self.lexer = some eds
        ∧ words3 = ((buffer_words_sorted cfg scan eds).filter
            (fun w =>
              !((acp_file_entries cfg with_acp acpLines? res.word1 res.word2).map
                  Prod.fst).contains w
                && !(w == res.word1) && !(w == res.word1 ++ res.word2))).filter
            (fun w => is_text_with_begin cfg w res.word1)
        ∧ res.words_decorated =
            (words3.filter (fun w => is_plain_match cfg.option_case_sens w res.word1)
              ++ words3.filter
                (fun w => !is_plain_match cfg.option_case_sens w res.word1)).map
              (decorate_word cfg (eds.map (get_words_list cfg scan)) (tab_titles_of eds))
        ∧ res.acp_words =
            ((acp_file_entries cfg with_acp acpLines? res.word1 res.word2).filter
              (fun e => is_plain_match cfg.option_case_sens e.1 res.word1)).map Prod.snd
              ++ ((acp_file_entries cfg with_acp acpLines? res.word1 res.word2).filter
                (fun e => !is_plain_match cfg.option_case_sens e.1 res.word1)).map
                Prod.snd := by
  unfold get_completions_model at h
  by_cases hlex : (!ignore_lexer && !is_lexer_allowed cfg.option_lexers ed_self.lexer) = true
  · rw [if_pos hlex] at h; cases h
  · rw [if_neg hlex] at h
    cases hword : get_word nonwords ed_self.lines x0 y0 with
    | none => rw [hword] at h; cases h
    | some pair =>
      obtain ⟨word1, word2⟩ := pair
      rw [hword] at h
      dsimp only [] at h
      by_cases hempty : word1.isEmpty = true
      · rw [if_pos hempty] at h; cases h
      · rw [if_neg hempty] at h
        by_cases hdigit : (word1.headD ' ').isDigit = true
        · rw [if_pos hdigit] at h; cases h
        · rw [if_neg hdigit] at h
          cases heds : get_editors cfg ed_self handles ed_self.lexer with
          | none => rw [heds] at h; cases h
          | some eds =>
            rw [heds] at h
            dsimp only [] at h
            cases hacp : (if with_acp = true then
                get_acp_words_model cfg acpLines? word1 word2
              else Except.ok ([], [])) with
            | error e => rw [hacp] at h; cases h
            | ok pairA =>
              obtain ⟨aw, aset⟩ := pairA
              rw [hacp] at h
              dsimp only [] at h
              by_cases hboth : ((buffer_words_sorted cfg scan eds).isEmpty
                  && aw.isEmpty) = true
              · rw [if_pos hboth] at h; cases h
              · rw [if_neg hboth] at h
                cases hfil : filter_itwb cfg word1
                    ((buffer_words_sorted cfg scan eds).filter
                      (fun w => !aset.contains w && !(w == word1)
                        && !(w == word1 ++ word2))) with
                | error e => rw [hfil] at h; cases h
                | ok words3 =>
                  rw [hfil] at h
                  dsimp only [] at h
                  cases h
                  obtain ⟨haw, haset⟩ := acp_branch_ok hacp
                  dsimp only []
                  refine ⟨eds, words3, rfl, ?_, rfl, ?_, rfl, haw⟩
                  · intro hnil
                    rw [hnil] at hempty
                    exact hempty rfl
                  · rw [filter_itwb_ok hfil, haset]

/-- C5: for every request that returns a result, the buffer list is the
decoration of a plain-first partition whose two groups are alphabetically
sorted, and the dictionary list is the plain-first partition of the
accepted dictionary entries taken in file order (each group a filter of
that file-order list, hence stable). -/
theorem completions_ordering_C5
    (cfg : Config) (nonwords : List Char) (ed_self : Editor) (handles : List Editor)
    (scan : Editor → List (List Char)) (acpLines? : Option (List (List Char)))
    (x0 y0 : Int) (with_acp ignore_lexer : Bool) (res : CompResult)
    (h : get_completions_model cfg nonwords ed_self handles scan acpLines? x0 y0
        with_acp ignore_lexer = .ok (some res)) :
    (∃ eds l1 l2,
        get_editors cfg ed_self handles ed_self.lexer = some eds
          ∧ res.words_decorated = (l1 ++ l2).map
              (decorate_word cfg (eds.map (get_words_list cfg scan)) (tab_titles_of eds))
          ∧ (∀ w ∈ l1, is_plain_match cfg.option_case_sens w res.word1 = true)
          ∧ (∀ w ∈ l2, is_plain_match cfg.option_case_sens w res.word1 = false)
          ∧ List.Sorted (· ≤ ·) l1 ∧ List.Sorted (· ≤ ·) l2)
      ∧ res.acp_words =
          ((acp_file_entries cfg with_acp acpLines? res.word1 res.word2).filter
            (fun e => is_plain_match cfg.option_case_sens e.1 res.word1)).map Prod.snd
            ++ ((acp_file_entries cfg with_acp acpLines? res.word1 res.word2).filter
              (fun e => !is_plain_match cfg.option_case_sens e.1 res.word1)).map
              Prod.snd := by
  obtain ⟨eds, words3, hword, hne, heds, hw3, hdeco, hacp⟩ := get_completions_model_ok h
  have hsorted : List.Pairwise (· ≤ ·) words3 := by
    rw [hw3]
    exact List.Pairwise.filter _ (List.Pairwise.filter _ (buffer_words_sorted_sorted cfg scan eds))
  refine ⟨⟨eds, words3.filter (fun w => is_plain_match cfg.option_case_sens w res.word1),
    words3.filter (fun w => !is_plain_match cfg.option_case_sens w res.word1),
    heds, hdeco, ?_, ?_, ?_, ?_⟩, hacp⟩
  · intro w hw
    exact (List.mem_filter.mp hw).2
  · intro w hw
    have hb := (List.mem_filter.mp hw).2
    simpa using hb
  · exact List.Pairwise.filter _ hsorted
  · exact List.Pairwise.filter _ hsorted

/-- C6: for every request that returns a result, no underlying buffer
candidate word equals the typed `left`, none equals `left + right`, and
none repeats a dictionary word; every dictionary entry word likewise
differs from `left` and `left + right` (the `%20` decoding cannot recreate
them, because a typed word never contains a space). -/
theorem completions_no_duplicates_C6
    (cfg : Config) (nonwords : List Char) (ed_self : Editor) (handles : List Editor)
    (scan : Editor → List (List Char)) (acpLines? : Option (List (List Char)))
    (x0 y0 : Int) (with_acp ignore_lexer : Bool) (res : CompResult)
    (h : get_completions_model cfg nonwords ed_self handles scan acpLines? x0 y0
        with_acp ignore_lexer = .ok (some res)) :
    (∃ (eds : List Editor) (ws : List (List Char)),
        res.words_decorated = ws.map
            (decorate_word cfg (eds.map (get_words_list cfg scan)) (tab_titles_of eds))
          ∧ ∀ w ∈ ws, w ≠ res.word1 ∧ w ≠ res.word1 ++ res.word2
              ∧ w ∉ (acp_file_entries cfg with_acp acpLines? res.word1 res.word2).map
                  Prod.fst)
      ∧ ∀ e ∈ acp_file_entries cfg with_acp acpLines? res.word1 res.word2,
          e.1 ≠ res.word1 ∧ e.1 ≠ res.word1 ++ res.word2 := by
  obtain ⟨eds, words3, hword, hne, heds, hw3, hdeco, hacp⟩ := get_completions_model_ok h
  constructor
  · refine ⟨eds,
      words3.filter (fun w => is_plain_match cfg.option_case_sens w res.word1)
        ++ words3.filter (fun w => !is_plain_match cfg.option_case_sens w res.word1),
      hdeco, ?_⟩
    intro w hw
    have hw3' : w ∈ words3 := by
      rcases List.mem_append.mp hw with h1 | h1
      · exact (List.mem_filter.mp h1).1
      · exact (List.mem_filter.mp h1).1
    rw [hw3] at hw3'
    have hcond := (List.mem_filter.mp (List.mem_filter.mp hw3').1).2
    simp only [Bool.and_eq_true, Bool.not_eq_true'] at hcond
    obtain ⟨⟨hA, hB⟩, hC⟩ := hcond
    refine ⟨?_, ?_, ?_⟩
    · simpa using hB
    · simpa using hC
    · simpa using hA
  · intro e he
    have hs1 : ' ' ∉ res.word1 := isword_no_space (get_word_chars hword).1
    have hs12 : ' ' ∉ res.word1 ++ res.word2 := by
      intro hm
      rcases List.mem_append.mp hm with hm | hm
      · exact hs1 hm
      · exact isword_no_space (get_word_chars hword).2 hm
    unfold acp_file_entries at he
    by_cases hwa : with_acp = true
    · rw [if_pos hwa] at he
      cases acpLines? with
      | none => cases he
      | some ls =>
        dsimp only [] at he
        obtain ⟨word, he1, _, hne1, hne2⟩ := acp_accepted_mem he
        rw [he1]
        exact ⟨no_space_ne_of_accepted hs1 hne1, no_space_ne_of_accepted hs12 hne2⟩
    · rw [if_neg hwa] at he
      cases he

/-- C8 counterexample: with `what_editors = 3` read from the settings file,
`get_editors` falls through all branches and returns `None`; the `for`
loop over it in `get_completions` (source line 301) then raises, instead
of returning a result tuple or `None`. -/
theorem get_completions_raises_C8_counterexample :
    get_completions_model (Config.mk [] 3 true 3 10000 true false false false true)
        [] (Editor.mk [['a', 'b']] [] []) [] (fun _ => []) none 1 0 true true
      = .error () := by decide

/-- C8 (amended): within the documented configuration domain — an editor
selection policy in `{0, 1, 2}` and a minimum length of at least 1 — and
with scan tokens non-empty (the built pattern only produces tokens of
length at least 2), `get_completions` never raises: it returns a result
tuple or `None` for every lexer, cursor position, document set and
dictionary file contents. -/
theorem get_completions_total_C8
    (cfg : Config) (nonwords : List Char) (ed_self : Editor) (handles : List Editor)
    (scan : Editor → List (List Char)) (acpLines? : Option (List (List Char)))
    (x0 y0 : Int) (with_acp ignore_lexer : Bool)
    (hwe : cfg.option_what_editors = 0 ∨ cfg.option_what_editors = 1
      ∨ cfg.option_what_editors = 2)
    (hmin : (1 : Int) ≤ cfg.option_min_len)
    (hscan : ∀ e : Editor, ∀ w ∈ scan e, w ≠ []) :
    ∃ r, get_completions_model cfg nonwords ed_self handles scan acpLines? x0 y0
        with_acp ignore_lexer = .ok r := by
  unfold get_completions_model
  by_cases hlex : (!ignore_lexer && !is_lexer_allowed cfg.option_lexers ed_self.lexer) = true
  · rw [if_pos hlex]; exact ⟨none, rfl⟩
  · rw [if_neg hlex]
    cases hword : get_word nonwords ed_self.lines x0 y0 with
    | none => exact ⟨none, rfl⟩
    | some pair =>
      obtain ⟨word1, word2⟩ := pair
      dsimp only []
      by_cases hempty : word1.isEmpty = true
      · rw [if_pos hempty]; exact ⟨none, rfl⟩
      · rw [if_neg hempty]
        by_cases hdigit : (word1.headD ' ').isDigit = true
        · rw [if_pos hdigit]; exact ⟨none, rfl⟩
        · rw [if_neg hdigit]
          have hne : word1 ≠ [] := by
            intro hnil
            rw [hnil] at hempty
            exact hempty rfl
          have heds : ∃ eds, get_editors cfg ed_self handles ed_self.lexer = some eds := by
            rcases hwe with h0 | h1 | h2
            · exact ⟨[ed_self], by simp [get_editors, h0]⟩
            · exact ⟨handles, by simp [get_editors, h1]⟩
            · exact ⟨handles.filter (fun e => e.lexer == ed_self.lexer),
                by simp [get_editors, h2]⟩
          obtain ⟨eds, heds⟩ := heds
          rw [heds]
          dsimp only []
          have hacp : ∃ pairA,
              (if with_acp = true then get_acp_words_model cfg acpLines? word1 word2
               else Except.ok ([], [])) = .ok pairA := by
            by_cases hwa : with_acp = true
            · rw [if_pos hwa]
              cases acpLines? with
              | none => exact ⟨([], []), rfl⟩
              | some ls =>
                unfold get_acp_words_model
                obtain ⟨t, ht⟩ := acp_scan_total hne hmin (acp_body ls)
                obtain ⟨p, f, ws⟩ := t
                dsimp only []
                rw [ht]
                exact ⟨(p ++ f, ws), rfl⟩
            · rw [if_neg hwa]; exact ⟨([], []), rfl⟩
          obtain ⟨⟨aw, aset⟩, hacp⟩ := hacp
          rw [hacp]
          dsimp only []
          by_cases hboth : ((buffer_words_sorted cfg scan eds).isEmpty && aw.isEmpty) = true
          · rw [if_pos hboth]; exact ⟨none, rfl⟩
          · rw [if_neg hboth]
            have hws' : ∀ w ∈ (buffer_words_sorted cfg scan eds).filter
                (fun w => !aset.contains w && !(w == word1) && !(w == word1 ++ word2)),
                w ≠ [] := by
              intro w hw
              obtain ⟨e, _, hwe'⟩ := buffer_words_sorted_mem (List.mem_filter.mp hw).1
              exact hscan e w hwe'
            rw [filter_itwb_total hne hws']
            exact ⟨_, rfl⟩

theorem get_completions_total_C8_witness :
    ∃ r, get_completions_model (Config.mk [] 3 true 0 10000 true false false false true)
        [] (Editor.mk [['a', 'b']] [] []) [] (fun _ => []) none 1 0 true true = .ok r :=
  get_completions_total_C8 (Config.mk [] 3 true 0 10000 true false false false true)
    [] (Editor.mk [['a', 'b']] [] []) [] (fun _ => []) none 1 0 true true
    (Or.inl rfl) (by decide) (fun e w hw => absurd hw (List.not_mem_nil w))

theorem completions_ordering_C5_witness :
    get_completions_model (Config.mk [] 3 true 0 10000 false false false false true)
        [] (Editor.mk [['p', 'l', ' ', 'p', 'x']] [] ['T']) []
        (fun _ => [['p', 'l', 'x'], ['p', 'l', 'a']]) none 2 0 false true
      = .ok (some (CompResult.mk ["text|pla".data, "text|plx".data] [] "pl".data []))
      ∧ ((∃ eds l1 l2,
          get_editors (Config.mk [] 3 true 0 10000 false false false false true)
              (Editor.mk [['p', 'l', ' ', 'p', 'x']] [] ['T']) []
              (Editor.mk [['p', 'l', ' ', 'p', 'x']] [] ['T']).lexer = some eds
            ∧ (CompResult.mk ["text|pla".data, "text|plx".data] [] "pl".data
                []).words_decorated = (l1 ++ l2).map
                (decorate_word (Config.mk [] 3 true 0 10000 false false false false true)
                  (eds.map (get_words_list
                    (Config.mk [] 3 true 0 10000 false false false false true)
                    (fun _ => [['p', 'l', 'x'], ['p', 'l', 'a']])))
                  (tab_titles_of eds))
            ∧ (∀ w ∈ l1, is_plain_match true w "pl".data = true)
            ∧ (∀ w ∈ l2, is_plain_match true w "pl".data = false)
            ∧ List.Sorted (· ≤ ·) l1 ∧ List.Sorted (· ≤ ·) l2)
        ∧ (CompResult.mk ["text|pla".data, "text|plx".data] [] "pl".data []).acp_words =
            ((acp_file_entries (Config.mk [] 3 true 0 10000 false false false false true)
              false none "pl".data []).filter
              (fun e => is_plain_match true e.1 "pl".data)).map Prod.snd
              ++ ((acp_file_entries (Config.mk [] 3 true 0 10000 false false false false true)
                false none "pl".data []).filter
                (fun e => !is_plain_match true e.1 "pl".data)).map Prod.snd) :=
  ⟨by decide,
    completions_ordering_C5 (Config.mk [] 3 true 0 10000 false false false false true)
      [] (Editor.mk [['p', 'l', ' ', 'p', 'x']] [] ['T']) []
      (fun _ => [['p', 'l', 'x'], ['p', 'l', 'a']]) none 2 0 false true
      (CompResult.mk ["text|pla".data, "text|plx".data] [] "pl".data []) (by decide)⟩

theorem completions_no_duplicates_C6_witness :
    get_completions_model (Config.mk [] 3 true 0 10000 true false false false true)
        [] (Editor.mk [['p', 'l', ' ', 'p', 'x']] [] ['T']) []
        (fun _ => [['p', 'l', 'x']])
        (some ["#chars".data, "^ please(x)|desc".data, "! plaxx%20y".data, "^ xyz".data])
        2 0 true true
      = .ok (some (CompResult.mk ["text|plx".data]
          ["^|please|(x)\tdesc".data, "!|plaxx y|\t".data] "pl".data []))
      ∧ ((∃ (eds : List Editor) (ws : List (List Char)),
          (CompResult.mk ["text|plx".data]
              ["^|please|(x)\tdesc".data, "!|plaxx y|\t".data] "pl".data
              []).words_decorated = ws.map
              (decorate_word (Config.mk [] 3 true 0 10000 true false false false true)
                (eds.map (get_words_list
                  (Config.mk [] 3 true 0 10000 true false false false true)
                  (fun _ => [['p', 'l', 'x']])))
                (tab_titles_of eds))
            ∧ ∀ w ∈ ws, w ≠ "pl".data ∧ w ≠ "pl".data ++ ([] : List Char)
                ∧ w ∉ (acp_file_entries
                    (Config.mk [] 3 true 0 10000 true false false false true) true
                    (some ["#chars".data, "^ please(x)|desc".data, "! plaxx%20y".data,
                      "^ xyz".data]) "pl".data []).map Prod.fst)
        ∧ ∀ e ∈ acp_file_entries
            (Config.mk [] 3 true 0 10000 true false false false true) true
            (some ["#chars".data, "^ please(x)|desc".data, "! plaxx%20y".data,
              "^ xyz".data]) "pl".data [],
            e.1 ≠ "pl".data ∧ e.1 ≠ "pl".data ++ ([] : List Char)) :=
  ⟨by decide,
    completions_no_duplicates_C6 (Config.mk [] 3 true 0 10000 true false false false true)
      [] (Editor.mk [['p', 'l', ' ', 'p', 'x']] [] ['T']) []
      (fun _ => [['p', 'l', 'x']])
      (some ["#chars".data, "^ please(x)|desc".data, "! plaxx%20y".data, "^ xyz".data])
      2 0 true true
      (CompResult.mk ["text|plx".data]
        ["^|please|(x)\tdesc".data, "!|plaxx y|\t".data] "pl".data []) (by decide)⟩
